import Mathlib

/-!
Verification of the border-seeded flood-fill color replacement implemented in
scripts/fix_icon.py (function fix_icon_and_generate_favicon), together with
the error-handling shape of the surrounding asset-generation script.

The pixel grid is modelled as a total function from integer coordinates to
pixels; the script only ever touches in-bounds coordinates, which is itself
one of the verified properties.  The BFS loop of the script is embedded as a
fuel-indexed iteration of a step function; the fuel is shown to be large
enough that the frontier always empties, which is the termination property.
Ghost fields record the list of pixel writes and the list of pixel reads
performed by the loop, so that frame and bounds properties can be stated.
-/

/-- A 4-channel RGBA pixel, each channel a natural number (8-bit in the
script; the algorithm is channel-agnostic). -/
structure Pixel where
  r : Nat
  g : Nat
  b : Nat
  a : Nat
deriving DecidableEq

/-- Integer pixel coordinates (x, y), matching the Python tuples, which can
go negative at the border before the bounds check. -/
abbrev Coord := Int × Int

/-- A pixel grid as a total function on coordinates. -/
abbrev Grid := Coord → Pixel

/-- The white-ish predicate of the script: R, G and B all strictly above
200; the alpha channel is ignored. -/
def is_white (p : Pixel) : Bool :=
  decide (p.r > 200) && decide (p.g > 200) && decide (p.b > 200)

/-- The target green color hard-coded in the script. -/
def target_green : Pixel := ⟨17, 124, 50, 255⟩

/-- Coordinate (x, y) lies inside a width-w, height-h grid. -/
def inBounds (w h : Nat) (c : Coord) : Prop :=
  0 ≤ c.1 ∧ c.1 < (w : Int) ∧ 0 ≤ c.2 ∧ c.2 < (h : Int)

instance (w h : Nat) (c : Coord) : Decidable (inBounds w h c) := by
  unfold inBounds; infer_instance

/-- The four axis offsets, in the order the script iterates them. -/
def neighborOffsets : List Coord := [(-1, 0), (1, 0), (0, -1), (0, 1)]

/-- The four 4-connected neighbors of a coordinate. -/
def neighbors (c : Coord) : List Coord :=
  neighborOffsets.map (fun d => (c.1 + d.1, c.2 + d.2))

/-- Coordinate lies on the outer ring of the grid. -/
def onBorder (w h : Nat) (c : Coord) : Prop :=
  inBounds w h c ∧
    (c.1 = 0 ∨ c.1 = (w : Int) - 1 ∨ c.2 = 0 ∨ c.2 = (h : Int) - 1)

/-- The seed list the script builds: (x, 0) and (x, h-1) for each x, then
(0, y) and (w-1, y) for each y.  Corner coordinates occur twice, exactly as
in the script. -/
def borderSeeds (w h : Nat) : List Coord :=
  (List.range w).flatMap (fun x => [((x : Int), 0), ((x : Int), (h : Int) - 1)]) ++
  (List.range h).flatMap (fun y => [(0, (y : Int)), ((w : Int) - 1, (y : Int))])

/-- Write one pixel of a grid. -/
def setPixel (g : Grid) (c : Coord) (p : Pixel) : Grid :=
  fun d => if d = c then p else g d

/-- State of the BFS loop: the mutable grid, the visited set, the FIFO
frontier, and ghost logs of the pixel writes and pixel reads performed. -/
structure FillState where
  grid : Grid
  visited : Finset Coord
  queue : List Coord
  writes : List Coord
  reads : List Coord

/-- Neighbors of c that pass the bounds check and the visited check; these
are exactly the coordinates whose pixel the script reads in the loop body
(the `and` short-circuits, so the pixel is read only after both checks). -/
def checkedNeighbors (w h : Nat) (c : Coord) (s : FillState) : List Coord :=
  (neighbors c).filter
    (fun n => decide (inBounds w h n) && decide (n ∉ insert c s.visited))

/-- Among the checked neighbors, those whose current pixel value (after c
itself has been recolored) satisfies the predicate; these get appended to
the frontier. -/
def enqueueList (pred : Pixel → Bool) (t : Pixel) (w h : Nat) (c : Coord)
    (s : FillState) : List Coord :=
  (checkedNeighbors w h c s).filter (fun n => pred (setPixel s.grid c t n))

/-- Body of one loop iteration after popping head c with remaining queue
rest: skip if visited, otherwise mark visited, recolor, and enqueue the
matching in-bounds unvisited neighbors. -/
def processHead (pred : Pixel → Bool) (t : Pixel) (w h : Nat) (c : Coord)
    (rest : List Coord) (s : FillState) : FillState :=
  if c ∈ s.visited then
    { s with queue := rest }
  else
    { grid := setPixel s.grid c t
      visited := insert c s.visited
      queue := rest ++ enqueueList pred t w h c s
      writes := s.writes ++ [c]
      reads := s.reads ++ checkedNeighbors w h c s }

/-- One iteration of the while loop (a no-op on an empty frontier). -/
def fillStep (pred : Pixel → Bool) (t : Pixel) (w h : Nat) (s : FillState) :
    FillState :=
  match s.queue with
  | [] => s
  | c :: rest => processHead pred t w h c rest s

/-- The while loop, indexed by fuel. -/
def fillLoop (pred : Pixel → Bool) (t : Pixel) (w h : Nat) :
    Nat → FillState → FillState
  | 0, s => s
  | fuel + 1, s =>
    match s.queue with
    | [] => s
    | _ :: _ => fillLoop pred t w h fuel (fillStep pred t w h s)

/-- Fuel that provably suffices for the loop to drain its frontier. -/
def fillFuel (w h : Nat) : Nat := 5 * (w * h) + 2 * w + 2 * h

/-- Initial state: original grid, empty visited set, frontier seeded with
the border coordinates whose pixel matches; building that filter reads the
pixel of every border seed. -/
def initState (pred : Pixel → Bool) (g : Grid) (w h : Nat) : FillState :=
  { grid := g
    visited := ∅
    queue := (borderSeeds w h).filter (fun p => pred (g p))
    writes := []
    reads := borderSeeds w h }

/-- The whole fill: run the loop from the initial state. -/
def fill (pred : Pixel → Bool) (t : Pixel) (g : Grid) (w h : Nat) : FillState :=
  fillLoop pred t w h (fillFuel w h) (initState pred g w h)

/-- Border-connectivity in the input grid: coordinates reachable from a
matching border coordinate through a 4-connected path of in-bounds matching
pixels. -/
inductive Reachable (pred : Pixel → Bool) (g : Grid) (w h : Nat) : Coord → Prop where
  | border : ∀ c, onBorder w h c → pred (g c) = true → Reachable pred g w h c
  | step : ∀ c n, Reachable pred g w h c → n ∈ neighbors c →
      inBounds w h n → pred (g n) = true → Reachable pred g w h n

/-- The six files the script writes, in the order it writes them: the fixed
master icon, the four resized icons, then the favicon. -/
def outputPaths : List String :=
  ["public/gimmies_app_icon.png",
   "public/icons/icon-1024.png",
   "public/icons/icon-512.png",
   "public/icons/icon-192.png",
   "public/apple-touch-icon.png",
   "public/favicon.png"]

/-- Run the save sequence inside the try block: each save either succeeds
(the path is written and execution continues) or raises, in which case no
further path is written and the except handler emits the single message
Error plus the exception text.  Returns (paths written, error messages). -/
def savesRun (saveE : String → Option String) :
    List String → List String × List String
  | [] => ([], [])
  | p :: ps =>
    match saveE p with
    | some e => ([], ["Error: " ++ e])
    | none => ((savesRun saveE ps).1.cons p, (savesRun saveE ps).2)

/-- Run the whole try block: if opening the source asset raises, nothing is
written and the handler emits one message; otherwise the saves run in
order. -/
def scriptRun (openE : Option String) (saveE : String → Option String) :
    List String × List String :=
  match openE with
  | some e => ([], ["Error: " ++ e])
  | none => savesRun saveE outputPaths

/-- The loop invariant relating the state of the BFS to the input grid g0:
visited pixels carry the target and everything else still carries its input
value; frontier and visited coordinates are border-reachable; qualifying
neighbors of visited coordinates are scheduled or done; matching border
coordinates are scheduled or done; the ghost write log enumerates the
visited set without duplicates; and all logged reads are in bounds. -/
structure FillInv (pred : Pixel → Bool) (t : Pixel) (g0 : Grid) (w h : Nat)
    (s : FillState) : Prop where
  grid_visited : ∀ c ∈ s.visited, s.grid c = t
  grid_unvisited : ∀ c, c ∉ s.visited → s.grid c = g0 c
  queue_reach : ∀ c ∈ s.queue, Reachable pred g0 w h c
  visited_reach : ∀ c ∈ s.visited, Reachable pred g0 w h c
  closure : ∀ c ∈ s.visited, ∀ n ∈ neighbors c, inBounds w h n →
    pred (g0 n) = true → n ∈ s.visited ∨ n ∈ s.queue
  border_covered : ∀ c, onBorder w h c → pred (g0 c) = true →
    c ∈ s.visited ∨ c ∈ s.queue
  writes_iff : ∀ c, c ∈ s.writes ↔ c ∈ s.visited
  writes_nodup : s.writes.Nodup
  reads_bounded : ∀ c ∈ s.reads, inBounds w h c

/-- All in-bounds coordinates, as a finite set. -/
def boundsFinset (w h : Nat) : Finset Coord :=
  (Finset.range w ×ˢ Finset.range h).image (fun p => ((p.1 : Int), (p.2 : Int)))

/-- The termination measure: five per not-yet-visited in-bounds coordinate
plus one per frontier entry. -/
def fillMeasure (w h : Nat) (s : FillState) : Nat :=
  5 * ((boundsFinset w h).filter (fun c => c ∉ s.visited)).card + s.queue.length

/-- A fully opaque white pixel, used in concrete instantiations. -/
def pWhite : Pixel := ⟨255, 255, 255, 255⟩

/-- The all-white grid, used in concrete instantiations. -/
def gWhite : Grid := fun _ => pWhite

/-- The all-green grid, used in concrete instantiations. -/
def gGreen : Grid := fun _ => target_green

/-- A save oracle that fails exactly on the icon-512 output, used in
concrete instantiations. -/
def saveFailExample : String → Option String :=
  fun p => if p = "public/icons/icon-512.png" then some "disk full" else none

/-! Basic lemmas about the step and loop. -/

theorem fillStep_nil {pred : Pixel → Bool} {t : Pixel} {w h : Nat}
    {s : FillState} (hq : s.queue = []) : fillStep pred t w h s = s := by
  obtain ⟨g, v, q, wr, rd⟩ := s
  simp only at hq
  subst hq
  rfl

theorem fillStep_cons {pred : Pixel → Bool} {t : Pixel} {w h : Nat}
    {s : FillState} {c : Coord} {rest : List Coord} (hq : s.queue = c :: rest) :
    fillStep pred t w h s = processHead pred t w h c rest s := by
  obtain ⟨g, v, q, wr, rd⟩ := s
  simp only at hq
  subst hq
  rfl

theorem fillLoop_nil {pred : Pixel → Bool} {t : Pixel} {w h : Nat}
    {s : FillState} (hq : s.queue = []) (fuel : Nat) :
    fillLoop pred t w h fuel s = s := by
  obtain ⟨g, v, q, wr, rd⟩ := s
  simp only at hq
  subst hq
  cases fuel <;> rfl

theorem fillLoop_succ_cons {pred : Pixel → Bool} {t : Pixel} {w h : Nat}
    {s : FillState} {c : Coord} {rest : List Coord} (hq : s.queue = c :: rest)
    (fuel : Nat) :
    fillLoop pred t w h (fuel + 1) s = fillLoop pred t w h fuel (fillStep pred t w h s) := by
  obtain ⟨g, v, q, wr, rd⟩ := s
  simp only at hq
  subst hq
  rfl

theorem mem_checkedNeighbors {w h : Nat} {c : Coord} {s : FillState} {n : Coord} :
    n ∈ checkedNeighbors w h c s ↔
      n ∈ neighbors c ∧ inBounds w h n ∧ n ∉ insert c s.visited := by
  simp [checkedNeighbors, List.mem_filter, and_assoc]

theorem mem_enqueueList {pred : Pixel → Bool} {t : Pixel} {w h : Nat}
    {c : Coord} {s : FillState} {n : Coord} :
    n ∈ enqueueList pred t w h c s ↔
      n ∈ neighbors c ∧ inBounds w h n ∧ n ∉ insert c s.visited ∧
        pred (setPixel s.grid c t n) = true := by
  simp [enqueueList, List.mem_filter, mem_checkedNeighbors, and_assoc]

/-! Border and bounds lemmas. -/

theorem onBorder_inBounds {w h : Nat} {c : Coord} (hb : onBorder w h c) :
    inBounds w h c := hb.1

theorem reachable_inBounds {pred : Pixel → Bool} {g : Grid} {w h : Nat}
    {c : Coord} (hr : Reachable pred g w h c) : inBounds w h c := by
  induction hr with
  | border c hb _ => exact hb.1
  | step c n _ _ hb _ _ => exact hb

theorem onBorder_mem_borderSeeds {w h : Nat} {c : Coord}
    (hb : onBorder w h c) : c ∈ borderSeeds w h := by
  obtain ⟨⟨hx0, hxw, hy0, hyh⟩, hedge⟩ := hb
  simp only [borderSeeds, List.mem_append, List.mem_flatMap, List.mem_range,
    List.mem_cons, List.not_mem_nil, or_false]
  rcases hedge with hx | hx | hy | hy
  · right
    exact ⟨c.2.toNat, by omega, Or.inl (by obtain ⟨x, y⟩ := c; simp_all)⟩
  · right
    exact ⟨c.2.toNat, by omega, Or.inr (by obtain ⟨x, y⟩ := c; simp_all)⟩
  · left
    exact ⟨c.1.toNat, by omega, Or.inl (by obtain ⟨x, y⟩ := c; simp_all)⟩
  · left
    exact ⟨c.1.toNat, by omega, Or.inr (by obtain ⟨x, y⟩ := c; simp_all)⟩

theorem borderSeeds_onBorder {w h : Nat} {c : Coord} (hw : 1 ≤ w) (hh : 1 ≤ h)
    (hc : c ∈ borderSeeds w h) : onBorder w h c := by
  simp only [borderSeeds, List.mem_append, List.mem_flatMap, List.mem_range,
    List.mem_cons, List.not_mem_nil, or_false] at hc
  obtain ⟨x, y⟩ := c
  rcases hc with ⟨a, ha, hc | hc⟩ | ⟨a, ha, hc | hc⟩ <;>
    · obtain ⟨h1, h2⟩ := Prod.mk.injEq .. ▸ hc
      constructor
      · refine ⟨?_, ?_, ?_, ?_⟩ <;> omega
      · omega

/-! The invariant holds initially and is preserved by the loop. -/

theorem init_inv (pred : Pixel → Bool) (t : Pixel) (g0 : Grid) (w h : Nat)
    (hw : 1 ≤ w) (hh : 1 ≤ h) : FillInv pred t g0 w h (initState pred g0 w h) := by
  constructor
  · intro c hc
    simp [initState] at hc
  · intro c _
    rfl
  · intro c hc
    simp only [initState, List.mem_filter] at hc
    exact Reachable.border c (borderSeeds_onBorder hw hh hc.1) hc.2
  · intro c hc
    simp [initState] at hc
  · intro c hc
    simp [initState] at hc
  · intro c hb hp
    right
    simp only [initState, List.mem_filter]
    exact ⟨onBorder_mem_borderSeeds hb, hp⟩
  · intro c
    simp [initState]
  · exact List.nodup_nil
  · intro c hc
    exact (borderSeeds_onBorder hw hh hc).1

theorem step_inv {pred : Pixel → Bool} {t : Pixel} {g0 : Grid} {w h : Nat}
    {s : FillState} (hs : FillInv pred t g0 w h s) :
    FillInv pred t g0 w h (fillStep pred t w h s) := by
  cases hq : s.queue with
  | nil => rwa [fillStep_nil hq]
  | cons c rest =>
    rw [fillStep_cons hq]
    unfold processHead
    by_cases hc : c ∈ s.visited
    · rw [if_pos hc]
      constructor
      · exact hs.grid_visited
      · exact hs.grid_unvisited
      · intro d hd
        exact hs.queue_reach d (by rw [hq]; exact List.mem_cons_of_mem c hd)
      · exact hs.visited_reach
      · intro d hd n hn hb hp
        rcases hs.closure d hd n hn hb hp with hv | hqmem
        · exact Or.inl hv
        · rw [hq] at hqmem
          rcases List.mem_cons.mp hqmem with rfl | hrest
          · exact Or.inl hc
          · exact Or.inr hrest
      · intro d hb hp
        rcases hs.border_covered d hb hp with hv | hqmem
        · exact Or.inl hv
        · rw [hq] at hqmem
          rcases List.mem_cons.mp hqmem with rfl | hrest
          · exact Or.inl hc
          · exact Or.inr hrest
      · exact hs.writes_iff
      · exact hs.writes_nodup
      · exact hs.reads_bounded
    · rw [if_neg hc]
      have hcreach : Reachable pred g0 w h c :=
        hs.queue_reach c (by rw [hq]; exact List.mem_cons_self c rest)
      constructor
      · intro d hd
        simp only [Finset.mem_insert] at hd
        rcases hd with rfl | hd
        · simp [setPixel]
        · have hdc : d ≠ c := by
            rintro rfl; exact hc hd
          simp only [setPixel, if_neg hdc]
          exact hs.grid_visited d hd
      · intro d hd
        simp only [Finset.mem_insert, not_or] at hd
        simp only [setPixel, if_neg hd.1]
        exact hs.grid_unvisited d hd.2
      · intro d hd
        rcases List.mem_append.mp hd with hrest | henq
        · exact hs.queue_reach d (by rw [hq]; exact List.mem_cons_of_mem c hrest)
        · rw [mem_enqueueList] at henq
          obtain ⟨hnb, hbnd, hnv, hp⟩ := henq
          have hdc : d ≠ c := by
            rintro rfl; exact hnv (Finset.mem_insert_self d s.visited)
          have hdv : d ∉ s.visited := fun hmem =>
            hnv (Finset.mem_insert_of_mem hmem)
          have hg : setPixel s.grid c t d = g0 d := by
            simp only [setPixel, if_neg hdc]
            exact hs.grid_unvisited d hdv
          exact Reachable.step c d hcreach hnb hbnd (hg ▸ hp)
      · intro d hd
        rcases Finset.mem_insert.mp hd with rfl | hd
        · exact hcreach
        · exact hs.visited_reach d hd
      · intro d hd n hn hb hp
        rcases Finset.mem_insert.mp hd with rfl | hd
        · by_cases hnv : n ∈ insert d s.visited
          · exact Or.inl hnv
          · right
            apply List.mem_append_right
            rw [mem_enqueueList]
            refine ⟨hn, hb, hnv, ?_⟩
            have hnd : n ≠ d := by
              rintro rfl; exact hnv (Finset.mem_insert_self n s.visited)
            have hnvis : n ∉ s.visited := fun hmem =>
              hnv (Finset.mem_insert_of_mem hmem)
            simpa [setPixel, if_neg hnd, hs.grid_unvisited n hnvis] using hp
        · rcases hs.closure d hd n hn hb hp with hv | hqmem
          · exact Or.inl (Finset.mem_insert_of_mem hv)
          · rw [hq] at hqmem
            rcases List.mem_cons.mp hqmem with rfl | hrest
            · exact Or.inl (Finset.mem_insert_self n s.visited)
            · exact Or.inr (List.mem_append_left _ hrest)
      · intro d hb hp
        rcases hs.border_covered d hb hp with hv | hqmem
        · exact Or.inl (Finset.mem_insert_of_mem hv)
        · rw [hq] at hqmem
          rcases List.mem_cons.mp hqmem with rfl | hrest
          · exact Or.inl (Finset.mem_insert_self d s.visited)
          · exact Or.inr (List.mem_append_left _ hrest)
      · intro d
        simp only [List.mem_append, List.mem_cons, List.not_mem_nil, or_false,
          Finset.mem_insert, hs.writes_iff d]
        tauto
      · refine List.Nodup.append hs.writes_nodup (List.nodup_singleton c) ?_
        intro d hd hdc
        rcases List.mem_cons.mp hdc with rfl | habs
        · exact hc ((hs.writes_iff d).mp hd)
        · exact absurd habs (List.not_mem_nil d)
      · intro d hd
        rcases List.mem_append.mp hd with hold | hnew
        · exact hs.reads_bounded d hold
        · exact (mem_checkedNeighbors.mp hnew).2.1

theorem loop_inv {pred : Pixel → Bool} {t : Pixel} {g0 : Grid} {w h : Nat}
    (fuel : Nat) {s : FillState} (hs : FillInv pred t g0 w h s) :
    FillInv pred t g0 w h (fillLoop pred t w h fuel s) := by
  induction fuel generalizing s with
  | zero => exact hs
  | succ fuel ih =>
    cases hq : s.queue with
    | nil => rwa [fillLoop_nil hq]
    | cons c rest =>
      rw [fillLoop_succ_cons hq]
      exact ih (step_inv hs)

/-! Termination: a measure that strictly decreases at every step of the
loop, and the resulting bound on the fuel needed to drain the frontier. -/

theorem mem_boundsFinset {w h : Nat} {c : Coord} :
    c ∈ boundsFinset w h ↔ inBounds w h c := by
  simp only [boundsFinset, Finset.mem_image, Finset.mem_product, Finset.mem_range]
  constructor
  · rintro ⟨⟨a, b⟩, ⟨ha, hb⟩, rfl⟩
    simp only [inBounds]
    omega
  · rintro ⟨h1, h2, h3, h4⟩
    refine ⟨(c.1.toNat, c.2.toNat), ⟨by omega, by omega⟩, ?_⟩
    obtain ⟨x, y⟩ := c
    simp only [Prod.mk.injEq]
    constructor <;> omega

theorem card_boundsFinset_le (w h : Nat) : (boundsFinset w h).card ≤ w * h := by
  calc (boundsFinset w h).card ≤ (Finset.range w ×ˢ Finset.range h).card :=
        Finset.card_image_le
    _ = w * h := by rw [Finset.card_product, Finset.card_range, Finset.card_range]

theorem length_neighbors (c : Coord) : (neighbors c).length = 4 := rfl

theorem enqueueList_length_le {pred : Pixel → Bool} {t : Pixel} {w h : Nat}
    {c : Coord} {s : FillState} : (enqueueList pred t w h c s).length ≤ 4 := by
  calc (enqueueList pred t w h c s).length
      ≤ (checkedNeighbors w h c s).length := List.length_filter_le _ _
    _ ≤ (neighbors c).length := List.length_filter_le _ _
    _ = 4 := length_neighbors c

theorem step_measure_lt {pred : Pixel → Bool} {t : Pixel} {g0 : Grid} {w h : Nat}
    {s : FillState} (hs : FillInv pred t g0 w h s) (hq : s.queue ≠ []) :
    fillMeasure w h (fillStep pred t w h s) < fillMeasure w h s := by
  cases hqe : s.queue with
  | nil => exact absurd hqe hq
  | cons c rest =>
    rw [fillStep_cons hqe]
    unfold processHead
    by_cases hc : c ∈ s.visited
    · rw [if_pos hc]
      simp only [fillMeasure, hqe]
      simp
    · rw [if_neg hc]
      have hcb : c ∈ boundsFinset w h := by
        rw [mem_boundsFinset]
        exact reachable_inBounds
          (hs.queue_reach c (by rw [hqe]; exact List.mem_cons_self c rest))
      have hcmem : c ∈ (boundsFinset w h).filter (fun d => d ∉ s.visited) :=
        Finset.mem_filter.mpr ⟨hcb, hc⟩
      have hfilter : (boundsFinset w h).filter (fun d => d ∉ insert c s.visited) =
          ((boundsFinset w h).filter (fun d => d ∉ s.visited)).erase c := by
        ext d
        simp only [Finset.mem_filter, Finset.mem_erase, Finset.mem_insert, not_or]
        tauto
      have hcard : ((boundsFinset w h).filter (fun d => d ∉ insert c s.visited)).card =
          ((boundsFinset w h).filter (fun d => d ∉ s.visited)).card - 1 := by
        rw [hfilter, Finset.card_erase_of_mem hcmem]
      have hpos : 1 ≤ ((boundsFinset w h).filter (fun d => d ∉ s.visited)).card :=
        Finset.card_pos.mpr ⟨c, hcmem⟩
      have hlen : (rest ++ enqueueList pred t w h c s).length ≤ rest.length + 4 := by
        rw [List.length_append]
        exact Nat.add_le_add_left enqueueList_length_le _
      simp only [fillMeasure, hqe, hcard, List.length_cons]
      omega

theorem loop_empties {pred : Pixel → Bool} {t : Pixel} {g0 : Grid} {w h : Nat}
    (fuel : Nat) {s : FillState} (hs : FillInv pred t g0 w h s)
    (hmu : fillMeasure w h s ≤ fuel) :
    (fillLoop pred t w h fuel s).queue = [] := by
  induction fuel generalizing s with
  | zero =>
    have : s.queue.length = 0 := by
      have := hmu
      simp only [fillMeasure] at this
      omega
    have hq : s.queue = [] := List.length_eq_zero.mp this
    rwa [fillLoop_nil hq]
  | succ fuel ih =>
    cases hq : s.queue with
    | nil => rwa [fillLoop_nil hq]
    | cons c rest =>
      rw [fillLoop_succ_cons hq]
      refine ih (step_inv hs) ?_
      have hlt : fillMeasure w h (fillStep pred t w h s) < fillMeasure w h s :=
        step_measure_lt hs (by rw [hq]; exact List.cons_ne_nil c rest)
      omega

theorem borderSeeds_length (w h : Nat) : (borderSeeds w h).length = 2 * w + 2 * h := by
  have hpair : ∀ (n : Nat) (f g : Nat → Coord),
      ((List.range n).flatMap (fun x => [f x, g x])).length = 2 * n := by
    intro n f g
    induction n with
    | zero => rfl
    | succ m ih =>
      rw [List.range_succ, List.flatMap_append _ _ _, List.length_append, ih]
      rfl
  simp only [borderSeeds, List.length_append, hpair]

theorem init_measure_le (pred : Pixel → Bool) (g0 : Grid) (w h : Nat) :
    fillMeasure w h (initState pred g0 w h) ≤ fillFuel w h := by
  have h1 : ((boundsFinset w h).filter
      (fun c => c ∉ (initState pred g0 w h).visited)).card ≤ w * h :=
    le_trans (Finset.card_filter_le _ _) (card_boundsFinset_le w h)
  have h2 : (initState pred g0 w h).queue.length ≤ 2 * w + 2 * h := by
    simp only [initState]
    calc ((borderSeeds w h).filter (fun p => pred (g0 p))).length
        ≤ (borderSeeds w h).length := List.length_filter_le _ _
      _ = 2 * w + 2 * h := borderSeeds_length w h
  simp only [fillMeasure, fillFuel]
  omega

/-! The final state of a fill: invariant, empty frontier, and the
characterization of the visited set as the border-reachable set. -/

theorem fill_inv {pred : Pixel → Bool} {t : Pixel} {g0 : Grid} {w h : Nat}
    (hw : 1 ≤ w) (hh : 1 ≤ h) :
    FillInv pred t g0 w h (fill pred t g0 w h) :=
  loop_inv (fillFuel w h) (init_inv pred t g0 w h hw hh)

theorem fill_queue_nil {pred : Pixel → Bool} {t : Pixel} {g0 : Grid} {w h : Nat}
    (hw : 1 ≤ w) (hh : 1 ≤ h) : (fill pred t g0 w h).queue = [] :=
  loop_empties (fillFuel w h) (init_inv pred t g0 w h hw hh)
    (init_measure_le pred g0 w h)

theorem fill_visited_iff {pred : Pixel → Bool} {t : Pixel} {g0 : Grid} {w h : Nat}
    (hw : 1 ≤ w) (hh : 1 ≤ h) {c : Coord} :
    c ∈ (fill pred t g0 w h).visited ↔ Reachable pred g0 w h c := by
  constructor
  · exact fun hc => (fill_inv hw hh).visited_reach c hc
  · intro hr
    induction hr with
    | border d hb hp =>
      rcases (fill_inv (t := t) hw hh).border_covered d hb hp with hv | hqmem
      · exact hv
      · rw [fill_queue_nil hw hh] at hqmem
        exact absurd hqmem (List.not_mem_nil d)
    | step d n _ hn hb hp ih =>
      rcases (fill_inv (t := t) hw hh).closure d ih n hn hb hp with hv | hqmem
      · exact hv
      · rw [fill_queue_nil hw hh] at hqmem
        exact absurd hqmem (List.not_mem_nil n)

theorem fill_grid_reachable {pred : Pixel → Bool} {t : Pixel} {g0 : Grid}
    {w h : Nat} (hw : 1 ≤ w) (hh : 1 ≤ h) {c : Coord}
    (hr : Reachable pred g0 w h c) : (fill pred t g0 w h).grid c = t :=
  (fill_inv hw hh).grid_visited c ((fill_visited_iff hw hh).mpr hr)

theorem fill_grid_unreachable {pred : Pixel → Bool} {t : Pixel} {g0 : Grid}
    {w h : Nat} (hw : 1 ≤ w) (hh : 1 ≤ h) {c : Coord}
    (hr : ¬ Reachable pred g0 w h c) : (fill pred t g0 w h).grid c = g0 c :=
  (fill_inv hw hh).grid_unvisited c (fun hv => hr ((fill_visited_iff hw hh).mp hv))

/-! Pixel dichotomy: each step either keeps a pixel or writes the target. -/

theorem fillStep_grid_cases (pred : Pixel → Bool) (t : Pixel) (w h : Nat)
    (s : FillState) (c : Coord) :
    (fillStep pred t w h s).grid c = s.grid c ∨
      (fillStep pred t w h s).grid c = t := by
  cases hq : s.queue with
  | nil =>
    rw [fillStep_nil hq]
    exact Or.inl rfl
  | cons d rest =>
    rw [fillStep_cons hq]
    unfold processHead
    by_cases hd : d ∈ s.visited
    · rw [if_pos hd]
      exact Or.inl rfl
    · rw [if_neg hd]
      simp only [setPixel]
      by_cases hcd : c = d
      · rw [if_pos hcd]
        exact Or.inr rfl
      · rw [if_neg hcd]
        exact Or.inl rfl

theorem loop_grid_cases (pred : Pixel → Bool) (t : Pixel) (g0 : Grid)
    (w h : Nat) (fuel : Nat) (s : FillState)
    (hbase : ∀ c, s.grid c = g0 c ∨ s.grid c = t) :
    ∀ c, (fillLoop pred t w h fuel s).grid c = g0 c ∨
      (fillLoop pred t w h fuel s).grid c = t := by
  induction fuel generalizing s with
  | zero => exact hbase
  | succ fuel ih =>
    cases hq : s.queue with
    | nil =>
      rw [fillLoop_nil hq]
      exact hbase
    | cons d rest =>
      rw [fillLoop_succ_cons hq]
      refine ih (fillStep pred t w h s) ?_
      intro c
      rcases fillStep_grid_cases pred t w h s c with he | he
      · rw [he]
        exact hbase c
      · exact Or.inr he

/-! No seed survives a completed fill whose target does not match, which
gives idempotence. -/

theorem fill_border_pred_false {pred : Pixel → Bool} {t : Pixel} {g0 : Grid}
    {w h : Nat} (hw : 1 ≤ w) (hh : 1 ≤ h) (ht : pred t = false) {c : Coord}
    (hb : onBorder w h c) : pred ((fill pred t g0 w h).grid c) = false := by
  by_cases hr : Reachable pred g0 w h c
  · rw [fill_grid_reachable hw hh hr, ht]
  · rw [fill_grid_unreachable hw hh hr]
    cases hp : pred (g0 c) with
    | false => rfl
    | true => exact absurd (Reachable.border c hb hp) hr

theorem fill_of_no_matching_seed {pred : Pixel → Bool} {t : Pixel} {g : Grid}
    {w h : Nat} (hs : ∀ c ∈ borderSeeds w h, pred (g c) = false) :
    fill pred t g w h = initState pred g w h := by
  have hq : (initState pred g w h).queue = [] := by
    simp only [initState]
    rw [List.filter_eq_nil_iff]
    intro c hc
    simp [hs c hc]
  exact fillLoop_nil hq (fillFuel w h)

/-! The save sequence stops at the first failing save, having written
exactly the paths before it and reporting a single error message. -/

theorem savesRun_stops_at_failure (saveE : String → Option String) :
    ∀ (pre : List String) (p : String) (post : List String) (e : String),
      (∀ q ∈ pre, saveE q = none) → saveE p = some e →
      savesRun saveE (pre ++ p :: post) = (pre, ["Error: " ++ e]) := by
  intro pre
  induction pre with
  | nil =>
    intro p post e _ hp
    simp [savesRun, hp]
  | cons q qs ih =>
    intro p post e hpre hp
    have hq : saveE q = none := hpre q (List.mem_cons_self q qs)
    have hrec := ih p post e (fun r hr => hpre r (List.mem_cons_of_mem q hr)) hp
    have happ : qs.append (p :: post) = qs ++ p :: post := rfl
    simp only [List.cons_append, savesRun, hq, happ, hrec]

/-! The claims. -/

/-- C1: for every grid with positive dimensions, every predicate, and every
target the predicate rejects, the fill recolors to the target exactly the
pixels that match in the input and are border-reachable through matching
pixels, and leaves every other pixel at its input value. -/
theorem fill_recolors_exactly_border_reachable (pred : Pixel → Bool)
    (t : Pixel) (g0 : Grid) (w h : Nat) (hw : 1 ≤ w) (hh : 1 ≤ h)
    (ht : pred t = false) :
    ∀ c : Coord,
      (Reachable pred g0 w h c → (fill pred t g0 w h).grid c = t) ∧
      (¬ Reachable pred g0 w h c → (fill pred t g0 w h).grid c = g0 c) :=
  fun _ => ⟨fun hr => fill_grid_reachable hw hh hr,
    fun hr => fill_grid_unreachable hw hh hr⟩

theorem fill_recolors_exactly_border_reachable_witness :
    1 ≤ 1 ∧ is_white target_green = false ∧
      ∀ c : Coord,
        (Reachable is_white gWhite 1 1 c →
          (fill is_white target_green gWhite 1 1).grid c = target_green) ∧
        (¬ Reachable is_white gWhite 1 1 c →
          (fill is_white target_green gWhite 1 1).grid c = gWhite c) :=
  ⟨le_refl 1, by decide,
    fill_recolors_exactly_border_reachable is_white target_green gWhite 1 1
      (le_refl 1) (le_refl 1) (by decide)⟩

/-- C2: every step of the traversal either leaves a pixel unchanged or
writes the target to it, and consequently every pixel of the final grid is
either its input value or the target; no third value appears. -/
theorem fill_no_third_value (pred : Pixel → Bool) (t : Pixel) (g0 : Grid)
    (w h : Nat) :
    (∀ s : FillState, ∀ c : Coord,
        (fillStep pred t w h s).grid c = s.grid c ∨
          (fillStep pred t w h s).grid c = t) ∧
    (∀ c : Coord, (fill pred t g0 w h).grid c = g0 c ∨
        (fill pred t g0 w h).grid c = t) := by
  refine ⟨fillStep_grid_cases pred t w h, ?_⟩
  unfold fill
  exact loop_grid_cases pred t g0 w h (fillFuel w h) (initState pred g0 w h)
    (fun _ => Or.inl rfl)

/-- C3: during one fill the write log has no duplicates, the written
coordinates are exactly the final visited set, and every coordinate outside
the visited set keeps its input pixel. -/
theorem fill_writes_each_pixel_at_most_once (pred : Pixel → Bool) (t : Pixel)
    (g0 : Grid) (w h : Nat) (hw : 1 ≤ w) (hh : 1 ≤ h) :
    (fill pred t g0 w h).writes.Nodup ∧
    (∀ c : Coord, c ∈ (fill pred t g0 w h).writes ↔
        c ∈ (fill pred t g0 w h).visited) ∧
    (∀ c : Coord, c ∉ (fill pred t g0 w h).visited →
        (fill pred t g0 w h).grid c = g0 c) := by
  have hinv : FillInv pred t g0 w h (fill pred t g0 w h) := fill_inv hw hh
  exact ⟨hinv.writes_nodup, hinv.writes_iff, hinv.grid_unvisited⟩

theorem fill_writes_each_pixel_at_most_once_witness :
    1 ≤ 2 ∧
      ((fill is_white target_green gWhite 2 2).writes.Nodup ∧
      (∀ c : Coord, c ∈ (fill is_white target_green gWhite 2 2).writes ↔
          c ∈ (fill is_white target_green gWhite 2 2).visited) ∧
      (∀ c : Coord, c ∉ (fill is_white target_green gWhite 2 2).visited →
          (fill is_white target_green gWhite 2 2).grid c = gWhite c)) :=
  ⟨by decide, fill_writes_each_pixel_at_most_once is_white target_green gWhite
    2 2 (by decide) (by decide)⟩

/-- C4: the fill terminates for every finite grid with positive dimensions:
after running the loop, the frontier is empty. -/
theorem fill_terminates (pred : Pixel → Bool) (t : Pixel) (g0 : Grid)
    (w h : Nat) (hw : 1 ≤ w) (hh : 1 ≤ h) :
    (fill pred t g0 w h).queue = [] :=
  fill_queue_nil hw hh

theorem fill_terminates_witness :
    1 ≤ 3 ∧ (fill is_white target_green gWhite 3 1).queue = [] :=
  ⟨by decide, fill_terminates is_white target_green gWhite 3 1
    (by decide) (by decide)⟩

/-- C5: the fill is idempotent when the predicate rejects the target:
running it a second time on the output grid changes nothing, because the
second pass finds no matching border seed. -/
theorem fill_idempotent (pred : Pixel → Bool) (t : Pixel) (g0 : Grid)
    (w h : Nat) (hw : 1 ≤ w) (hh : 1 ≤ h) (ht : pred t = false) :
    (fill pred t ((fill pred t g0 w h).grid) w h).grid =
      (fill pred t g0 w h).grid := by
  have hseeds : ∀ c ∈ borderSeeds w h,
      pred ((fill pred t g0 w h).grid c) = false :=
    fun c hc => fill_border_pred_false hw hh ht (borderSeeds_onBorder hw hh hc)
  rw [fill_of_no_matching_seed hseeds]
  rfl

theorem fill_idempotent_witness :
    1 ≤ 1 ∧ is_white target_green = false ∧
      (fill is_white target_green
        ((fill is_white target_green gWhite 1 1).grid) 1 1).grid =
        (fill is_white target_green gWhite 1 1).grid :=
  ⟨le_refl 1, by decide, fill_idempotent is_white target_green gWhite 1 1
    (le_refl 1) (le_refl 1) (by decide)⟩

/-- C6: when no border pixel satisfies the predicate, the fill is a no-op:
the seed filter is empty, the loop body never runs, no write happens, and
the output grid is the input grid. -/
theorem fill_noop_without_matching_border (pred : Pixel → Bool) (t : Pixel)
    (g0 : Grid) (w h : Nat) (hw : 1 ≤ w) (hh : 1 ≤ h)
    (hb : ∀ c : Coord, onBorder w h c → pred (g0 c) = false) :
    (fill pred t g0 w h).grid = g0 ∧ (fill pred t g0 w h).writes = [] := by
  have hseeds : ∀ c ∈ borderSeeds w h, pred (g0 c) = false :=
    fun c hc => hb c (borderSeeds_onBorder hw hh hc)
  rw [fill_of_no_matching_seed hseeds]
  exact ⟨rfl, rfl⟩

theorem fill_noop_without_matching_border_witness :
    (∀ c : Coord, onBorder 1 1 c → is_white (gGreen c) = false) ∧
      ((fill is_white target_green gGreen 1 1).grid = gGreen ∧
        (fill is_white target_green gGreen 1 1).writes = []) :=
  ⟨fun _ _ => rfl, fill_noop_without_matching_border is_white target_green
    gGreen 1 1 (le_refl 1) (le_refl 1) (fun _ _ => rfl)⟩

/-- C7: the concrete predicate of the script holds exactly when the R, G
and B channels each strictly exceed 200, it ignores the alpha channel, and
it rejects the concrete target color (17, 124, 50, 255), so the caller
obligation that the target not match is satisfied. -/
theorem is_white_spec :
    (∀ p : Pixel, is_white p = true ↔ (200 < p.r ∧ 200 < p.g ∧ 200 < p.b)) ∧
    (∀ r g b a1 a2 : Nat,
      is_white ⟨r, g, b, a1⟩ = is_white ⟨r, g, b, a2⟩) ∧
    is_white target_green = false := by
  refine ⟨?_, fun _ _ _ _ _ => rfl, rfl⟩
  intro p
  simp [is_white, and_assoc]

/-- C8: if opening the source asset fails, nothing is written and the
handler reports a single error; if a save fails after some prefix of
successful saves, exactly that prefix has been written, none of the
downstream outputs is written, and the handler reports a single error. -/
theorem script_single_failure (openE : Option String)
    (saveE : String → Option String) :
    (∀ e : String, openE = some e →
      scriptRun openE saveE = ([], ["Error: " ++ e])) ∧
    (∀ (pre : List String) (p : String) (post : List String) (e : String),
      openE = none → outputPaths = pre ++ p :: post →
      (∀ q ∈ pre, saveE q = none) → saveE p = some e →
      scriptRun openE saveE = (pre, ["Error: " ++ e])) := by
  constructor
  · intro e he
    simp [scriptRun, he]
  · intro pre p post e hopen hsplit hpre hp
    simp only [scriptRun, hopen]
    rw [hsplit]
    exact savesRun_stops_at_failure saveE pre p post e hpre hp

theorem script_single_failure_witness :
    scriptRun none saveFailExample =
      (["public/gimmies_app_icon.png", "public/icons/icon-1024.png"],
        ["Error: disk full"]) :=
  (script_single_failure none saveFailExample).2
    ["public/gimmies_app_icon.png", "public/icons/icon-1024.png"]
    "public/icons/icon-512.png"
    ["public/icons/icon-192.png", "public/apple-touch-icon.png",
      "public/favicon.png"]
    "disk full" rfl rfl (by decide) (by decide)

/-- C9: even without the precondition that the predicate rejects the
target, the fill still terminates and still recolors exactly the
border-reachable input-matching set: the visited-set check keeps the fill
from cascading past the intended region for every target value. -/
theorem fill_safe_even_if_target_matches (pred : Pixel → Bool) (t : Pixel)
    (g0 : Grid) (w h : Nat) (hw : 1 ≤ w) (hh : 1 ≤ h) :
    (fill pred t g0 w h).queue = [] ∧
    (∀ c : Coord, c ∈ (fill pred t g0 w h).visited ↔
        Reachable pred g0 w h c) ∧
    (∀ c ∈ (fill pred t g0 w h).visited, (fill pred t g0 w h).grid c = t) ∧
    (∀ c : Coord, c ∉ (fill pred t g0 w h).visited →
        (fill pred t g0 w h).grid c = g0 c) := by
  have hinv : FillInv pred t g0 w h (fill pred t g0 w h) := fill_inv hw hh
  exact ⟨fill_queue_nil hw hh, fun _ => fill_visited_iff hw hh,
    hinv.grid_visited, hinv.grid_unvisited⟩

theorem fill_safe_even_if_target_matches_witness :
    1 ≤ 1 ∧ is_white pWhite = true ∧
      ((fill is_white pWhite gWhite 1 1).queue = [] ∧
      (∀ c : Coord, c ∈ (fill is_white pWhite gWhite 1 1).visited ↔
          Reachable is_white gWhite 1 1 c) ∧
      (∀ c ∈ (fill is_white pWhite gWhite 1 1).visited,
          (fill is_white pWhite gWhite 1 1).grid c = pWhite) ∧
      (∀ c : Coord, c ∉ (fill is_white pWhite gWhite 1 1).visited →
          (fill is_white pWhite gWhite 1 1).grid c = gWhite c)) :=
  ⟨le_refl 1, by decide, fill_safe_even_if_target_matches is_white pWhite
    gWhite 1 1 (le_refl 1) (le_refl 1)⟩

/-- C10: every pixel read the fill performs (each border seed candidate and
each neighbor surviving the bounds and visited checks) and every pixel
write it performs uses coordinates within the grid bounds. -/
theorem fill_accesses_within_bounds (pred : Pixel → Bool) (t : Pixel)
    (g0 : Grid) (w h : Nat) (hw : 1 ≤ w) (hh : 1 ≤ h) :
    (∀ c ∈ (fill pred t g0 w h).reads, inBounds w h c) ∧
    (∀ c ∈ (fill pred t g0 w h).writes, inBounds w h c) := by
  have hinv : FillInv pred t g0 w h (fill pred t g0 w h) := fill_inv hw hh
  refine ⟨hinv.reads_bounded, ?_⟩
  intro c hc
  exact reachable_inBounds
    (hinv.visited_reach c ((hinv.writes_iff c).mp hc))

theorem fill_accesses_within_bounds_witness :
    1 ≤ 2 ∧
      ((∀ c ∈ (fill is_white target_green gWhite 2 1).reads, inBounds 2 1 c) ∧
      (∀ c ∈ (fill is_white target_green gWhite 2 1).writes, inBounds 2 1 c)) :=
  ⟨by decide, fill_accesses_within_bounds is_white target_green gWhite 2 1
    (by decide) (by decide)⟩
